import Mathlib

/-!
Verification development for TaskRouterX.

Shallow embedding of the scheduling and execution pipeline:
`src/store/models.py` (data model), `src/core/scheduler.py` (policy
strategies), `src/core/worker.py` (executor), `src/core/runner.py`
(dispatch loop), and the relevant endpoints of `src/api/main.py`
(admission, cancellation, stats, health).

Conventions of the embedding:
* SQLAlchemy rows become Lean structures; the mutable store (tasks,
  pools, schedule logs) becomes an explicit `Store` value threaded
  through the operations.
* `db.query(..).filter(id == x).first()` becomes a first-match lookup
  (`findTask` / `findPool`) and the subsequent mutation of that row
  becomes a first-match in-place replacement (`replaceTask` /
  `replacePool`).
* Wall-clock instants (`datetime.utcnow()`) are abstracted as `Nat`
  parameters, the random success draw of the worker simulator as a
  `Bool` parameter.
* Python `float` cost values are modelled as `ℚ` (they are only
  compared, never combined arithmetically, in the code under study).
* Integer columns (`current_load`, `capacity`) are `ℤ`, so that the
  clamp `max(0, current_load - 1)` of the release phase is modelled
  literally.
-/

namespace TaskRouterX

/-- `RegionType` from `src/store/models.py`. -/
inductive Region where
  | usEast
  | usWest
  | euWest
  | apEast
deriving DecidableEq, Repr

/-- `TaskStatus` from `src/store/models.py`. -/
inductive TaskStatus where
  | queued
  | processing
  | completed
  | failed
  | cancelled
deriving DecidableEq, Repr

/-- `AlgorithmType` from `src/store/models.py`. -/
inductive AlgorithmType where
  | fifo
  | priority
  | minCost
deriving DecidableEq, Repr

/-- `Task` row from `src/store/models.py` (the `type`, `cost` and
`task_metadata` columns play no role in any claim's code path and are
omitted from the embedding). -/
structure Task where
  id : String
  priority : ℤ
  region : Region
  status : TaskStatus
  startedAt : Option ℕ
  completedAt : Option ℕ
  workerId : Option String
  algorithmUsed : Option AlgorithmType
deriving DecidableEq, Repr

/-- `WorkerPool` row from `src/store/models.py` (`resource_type` is
never consulted by the policy or executor code and is omitted). -/
structure WorkerPool where
  id : ℕ
  name : String
  region : Region
  costPerUnit : ℚ
  capacity : ℤ
  currentLoad : ℤ
deriving DecidableEq, Repr

/-- `ScheduleLog` row from `src/store/models.py`, reduced to the
columns the claims mention (`task_id`, `event_type`); the free-form
`details` mapping is elided. -/
structure ScheduleLog where
  taskId : String
  eventType : String
deriving DecidableEq, Repr

/-- The relational store: the three tables of `src/store/models.py`. -/
structure Store where
  tasks : List Task
  pools : List WorkerPool
  logs : List ScheduleLog
deriving DecidableEq, Repr

/-- `db.query(Task).filter(Task.id == task_id).first()`. -/
def findTask (ts : List Task) (tid : String) : Option Task :=
  ts.find? (fun t => decide (t.id = tid))

/-- `db.query(WorkerPool).filter(WorkerPool.id == pool_id).first()`. -/
def findPool (ps : List WorkerPool) (pid : ℕ) : Option WorkerPool :=
  ps.find? (fun p => decide (p.id = pid))

/-- Mutating the ORM row returned by `.first()`: replace the first
list element whose id matches. -/
def replaceTask (ts : List Task) (tid : String) (f : Task → Task) : List Task :=
  match ts with
  | [] => []
  | t :: rest =>
    if t.id = tid then f t :: rest else t :: replaceTask rest tid f

/-- Mutating the ORM pool row returned by `.first()`. -/
def replacePool (ps : List WorkerPool) (pid : ℕ) (f : WorkerPool → WorkerPool) :
    List WorkerPool :=
  match ps with
  | [] => []
  | p :: rest =>
    if p.id = pid then f p :: rest else p :: replacePool rest pid f

/-- `WorkerSimulator.can_accept_task` from `src/core/worker.py`:
`worker_pool.current_load < worker_pool.capacity`. -/
def can_accept_task (p : WorkerPool) : Bool :=
  decide (p.currentLoad < p.capacity)

/-- `WorkerSimulator.get_available_capacity` from `src/core/worker.py`:
`max(0, capacity - current_load)`. -/
def get_available_capacity (p : WorkerPool) : ℤ :=
  max 0 (p.capacity - p.currentLoad)

/-- Python's `min(xs, key=k)` for a nonempty list: a left fold that
replaces the current best exactly when the new key is strictly
smaller, hence returns the first element attaining the minimal key. -/
def pyMinBy {α β : Type} [LinearOrder β] (k : α → β) : List α → Option α
  | [] => none
  | x :: xs => some (xs.foldl (fun b y => if k y < k b then y else b) x)

/-- Python's `max(xs, key=k)` for a nonempty list: replaces the
current best exactly when the new key is strictly larger. -/
def pyMaxBy {α β : Type} [LinearOrder β] (k : α → β) : List α → Option α
  | [] => none
  | x :: xs => some (xs.foldl (fun b y => if k b < k y then y else b) x)

/-- `FIFOScheduler.select_worker` from `src/core/scheduler.py`: first
pool in iteration order in the task's region with free capacity, else
first pool of any region with free capacity, else `None`. -/
def fifoSelect (task : Task) (pools : List WorkerPool) : Option WorkerPool :=
  match pools.find? (fun p => decide (p.region = task.region) && can_accept_task p) with
  | some p => some p
  | none => pools.find? (fun p => can_accept_task p)

/-- The candidate set used by `PriorityScheduler.select_worker`
(`src/core/scheduler.py`): free-capacity pools of the task's region,
falling back to the free-capacity pools of all regions when that
filter is empty. -/
def availablePools (task : Task) (pools : List WorkerPool) : List WorkerPool :=
  let sameRegion := pools.filter
    (fun p => decide (p.region = task.region) && can_accept_task p)
  if sameRegion.isEmpty then pools.filter (fun p => can_accept_task p)
  else sameRegion

/-- The lexicographic key `(cost_per_unit, -capacity)` used for the
medium priority band. -/
def mediumKey (p : WorkerPool) : Lex (ℚ × ℤ) :=
  toLex (p.costPerUnit, -p.capacity)

/-- `PriorityScheduler.select_worker` from `src/core/scheduler.py`. -/
def prioritySelect (task : Task) (pools : List WorkerPool) : Option WorkerPool :=
  let avail := availablePools task pools
  if avail.isEmpty then none
  else if task.priority ≥ 7 then
    pyMinBy (fun p => p.costPerUnit) avail
  else if task.priority ≥ 4 then
    pyMinBy mediumKey avail
  else
    pyMaxBy get_available_capacity avail

/-- `MinCostScheduler.select_worker` from `src/core/scheduler.py`. -/
def minCostSelect (task : Task) (pools : List WorkerPool) : Option WorkerPool :=
  let avail := pools.filter (fun p => can_accept_task p)
  if avail.isEmpty then none
  else
    let regionPools := avail.filter (fun p => decide (p.region = task.region))
    if regionPools.isEmpty then pyMinBy (fun p => p.costPerUnit) avail
    else pyMinBy (fun p => p.costPerUnit) regionPools

/-- `SchedulerFactory.create(algorithm_type).select_worker`: dispatch
on the algorithm tag. -/
def selectByAlgo (a : AlgorithmType) (task : Task) (pools : List WorkerPool) :
    Option WorkerPool :=
  match a with
  | .fifo => fifoSelect task pools
  | .priority => prioritySelect task pools
  | .minCost => minCostSelect task pools

/-- Claim phase of `WorkerSimulator.execute_task`
(`src/core/worker.py`, first `get_db_context` block): re-read task and
pool; abort returning `False` if either is missing or the pool is at
capacity; otherwise occupy one slot and move the task to
`processing`, all committed together. -/
def executeClaim (s : Store) (tid : String) (pid : ℕ) (now : ℕ) : Bool × Store :=
  match findTask s.tasks tid, findPool s.pools pid with
  | some _, some pool =>
    if pool.currentLoad ≥ pool.capacity then (false, s)
    else
      (true,
        { s with
          pools := replacePool s.pools pid
            (fun p => { p with currentLoad := p.currentLoad + 1 }),
          tasks := replaceTask s.tasks tid
            (fun t => { t with
              status := .processing,
              startedAt := some now,
              workerId := some pool.name }) })
  | _, _ => (false, s)

/-- Release phase of `WorkerSimulator.execute_task`
(`src/core/worker.py`, second `get_db_context` block): decrement the
pool load with `max(0, current_load - 1)`, stamp `completed_at`, set
the terminal status from the success draw, commit.  No `ScheduleLog`
row is added in this block. -/
def executeRelease (s : Store) (tid : String) (pid : ℕ) (success : Bool) (now : ℕ) :
    Bool × Store :=
  match findTask s.tasks tid, findPool s.pools pid with
  | some _, some _ =>
    (success,
      { s with
        pools := replacePool s.pools pid
          (fun p => { p with currentLoad := max 0 (p.currentLoad - 1) }),
        tasks := replaceTask s.tasks tid
          (fun t => { t with
            status := if success then .completed else .failed,
            completedAt := some now }) })
  | _, _ => (success, s)

/-- `WorkerSimulator.execute_task` end to end: claim, simulated work
(abstracted into the `success` draw and the two instants), release. -/
def execute_task (s : Store) (tid : String) (pid : ℕ) (success : Bool)
    (startTime endTime : ℕ) : Bool × Store :=
  match executeClaim s tid pid startTime with
  | (false, s1) => (false, s1)
  | (true, s1) => executeRelease s1 tid pid success endTime

/-- Result of one `SchedulerRunner._process_task` call
(`src/core/runner.py`): the store after the call, the `(task_id,
pool_id)` pair handed to the executor thread (if any), and whether the
task was re-enqueued. -/
structure DispatchOutcome where
  store : Store
  handedToExecutor : Option (String × ℕ)
  requeued : Bool
deriving DecidableEq, Repr

/-- `SchedulerRunner._process_task` from `src/core/runner.py`.
`strategyAlgo` is the algorithm of the `scheduler` argument (the
strategy object `_run` created once at loop start); `currentAlgo` is
`self.algorithm_type` at call time, which is what gets recorded in
`task.algorithm_used` and in the `scheduled` log.  The only drop path
is a missing task; the task's status is not consulted. -/
def process_task (strategyAlgo currentAlgo : AlgorithmType) (s : Store)
    (tid : String) : DispatchOutcome :=
  match findTask s.tasks tid with
  | none => ⟨s, none, false⟩
  | some task =>
    match selectByAlgo strategyAlgo task s.pools with
    | some pool =>
      ⟨{ s with
          tasks := replaceTask s.tasks tid
            (fun t => { t with algorithmUsed := some currentAlgo }),
          logs := s.logs ++ [⟨tid, "scheduled"⟩] },
        some (tid, pool.id), false⟩
    | none => ⟨s, none, true⟩

/-- The mutable fields of `SchedulerRunner` (`src/core/runner.py`):
`algorithm_type` (reassigned by `set_algorithm`), `_running`, and the
algorithm from which the `_run` thread built its local `scheduler`
object at the moment it was started (`none` before any start). -/
structure RunnerState where
  algorithmType : AlgorithmType
  running : Bool
  loopAlgorithm : Option AlgorithmType
deriving DecidableEq, Repr

/-- `SchedulerRunner.__init__`: `_running = False`, no loop thread. -/
def runnerInit (a : AlgorithmType) : RunnerState :=
  ⟨a, false, none⟩

/-- `SchedulerRunner.start`: no-op when already running; otherwise the
`_run` thread begins and executes
`scheduler = SchedulerFactory.create(self.algorithm_type)` once. -/
def runnerStart (r : RunnerState) : RunnerState :=
  if r.running then r
  else { r with running := true, loopAlgorithm := some r.algorithmType }

/-- `SchedulerRunner.stop`: clears `_running`. -/
def runnerStop (r : RunnerState) : RunnerState :=
  if r.running then { r with running := false } else r

/-- `SchedulerRunner.set_algorithm`: reassigns `algorithm_type` only;
the `scheduler` object held by the live `_run` loop is untouched. -/
def set_algorithm (r : RunnerState) (k : AlgorithmType) : RunnerState :=
  { r with algorithmType := k }

/-- A dispatch-loop iteration of the started runner on task `tid`:
`_run` passes its once-created `scheduler` to `_process_task`, which
also reads the current `self.algorithm_type`. -/
def runnerDispatch (r : RunnerState) (s : Store) (tid : String) : DispatchOutcome :=
  match r.loopAlgorithm with
  | some strat => process_task strat r.algorithmType s tid
  | none => ⟨s, none, false⟩

/-- `create_task` from `src/api/main.py` (admission): persist the task
with `status = QUEUED`, then append a `created` log. -/
def create_task (s : Store) (tid : String) (prio : ℤ) (region : Region) : Store :=
  { s with
    tasks := s.tasks ++
      [{ id := tid, priority := prio, region := region, status := .queued,
         startedAt := none, completedAt := none, workerId := none,
         algorithmUsed := none }],
    logs := s.logs ++ [⟨tid, "created"⟩] }

/-- `cancel_task` from `src/api/main.py`: 404 when the task is
missing, 400 unless its status is exactly `queued`; otherwise set
`cancelled` and append a `cancelled` log in one commit. -/
def cancel_task (s : Store) (tid : String) : Except ℕ Store :=
  match findTask s.tasks tid with
  | none => .error 404
  | some t =>
    if t.status = .queued then
      .ok { s with
        tasks := replaceTask s.tasks tid (fun u => { u with status := .cancelled }),
        logs := s.logs ++ [⟨tid, "cancelled"⟩] }
    else .error 400

/-- `countP` over task statuses. -/
def countStatus (ts : List Task) (st : TaskStatus) : ℕ :=
  ts.countP (fun t => decide (t.status = st))

/-- Total pool load, `Σ pool.current_load`. -/
def poolLoadSum (ps : List WorkerPool) : ℤ :=
  (ps.map (fun p => p.currentLoad)).sum

/-- The load-conservation invariant of the spec:
`Σ pool.current_load = #{tasks with status = processing}`. -/
def conservation (s : Store) : Prop :=
  poolLoadSum s.pools = (countStatus s.tasks .processing : ℤ)

instance (s : Store) : Decidable (conservation s) := by
  unfold conservation; infer_instance

/-- Round-half-even of a rational, the semantics of Python's builtin
`round` on the exactly-representable values arising here. -/
def roundHalfEven (q : ℚ) : ℤ :=
  if q - ⌊q⌋ < 1/2 then ⌊q⌋
  else if q - ⌊q⌋ > 1/2 then ⌊q⌋ + 1
  else if ⌊q⌋ % 2 = 0 then ⌊q⌋ else ⌊q⌋ + 1

/-- Python `round(x, 2)`. -/
def roundTo2 (q : ℚ) : ℚ :=
  (roundHalfEven (q * 100) : ℚ) / 100

/-- The `throughput` field computed by `get_system_stats`
(`src/api/main.py`): `tasks_processed / 60` where `tasks_processed =
tasks_completed + tasks_failed`, rounded to two decimals, and `0.0`
when `tasks_processed` is zero. -/
def statsThroughput (ts : List Task) : ℚ :=
  let tasksCompleted := countStatus ts .completed
  let tasksFailed := countStatus ts .failed
  let tasksProcessed := tasksCompleted + tasksFailed
  if tasksProcessed > 0 then roundTo2 ((tasksProcessed : ℚ) / 60) else 0

/-- The body of `HealthResponse` as assembled by `health_check`
(`src/api/main.py`). -/
structure HealthReport where
  status : String
  database : String
  queue : String
  scheduler : String
deriving DecidableEq, Repr

/-- The `is_running` attribute looked up by `health_check` on the
`SchedulerRunner` instance.  `SchedulerRunner` (`src/core/runner.py`)
defines no method of that name — the class body has only `start`,
`stop`, `_run`, `_process_task`, `get_stats` and `set_algorithm` — so
the lookup has no implementation to resolve to. -/
def isRunningMethod : Option (RunnerState → Bool) := none

/-- `health_check` from `src/api/main.py`.  `dbOk` and `queueOk` are
the outcomes of the store and queue probes.  The scheduler probe calls
`scheduler_runner.is_running()` inside `try/except Exception`; when
the method does not exist the `AttributeError` lands in the handler,
which reports `"stopped"`. -/
def health_check (dbOk queueOk : Bool) (r : RunnerState) : HealthReport :=
  let dbStatus := if dbOk then "healthy" else "unhealthy"
  let queueStatus := if queueOk then "healthy" else "unhealthy"
  let schedulerStatus :=
    match isRunningMethod with
    | some f => if f r then "healthy" else "stopped"
    | none => "stopped"
  let overall :=
    if dbStatus = "healthy" ∧ queueStatus = "healthy" ∧ schedulerStatus = "healthy"
    then "healthy" else "degraded"
  ⟨overall, dbStatus, queueStatus, schedulerStatus⟩

/-- The FIFO preference order in the spec's words (§4.2 FIFO of
`spec.md`): head of the same-region free-capacity pools in iteration
order, else head of the free-capacity pools of any region. -/
def fifoSpecChoice (task : Task) (pools : List WorkerPool) : Option WorkerPool :=
  match (pools.filter
      (fun p => decide (p.region = task.region) && can_accept_task p)).head? with
  | some p => some p
  | none => (pools.filter (fun p => can_accept_task p)).head?

/-- Concrete pool used by the witnesses. -/
def poolA : WorkerPool :=
  { id := 1, name := "A", region := .usEast, costPerUnit := 1,
    capacity := 2, currentLoad := 0 }

/-- Concrete queued task used by the witnesses. -/
def taskT : Task :=
  { id := "t1", priority := 5, region := .usEast, status := .queued,
    startedAt := none, completedAt := none, workerId := none,
    algorithmUsed := none }

/-- Concrete store used by the witnesses. -/
def storeW : Store := ⟨[taskT], [poolA], []⟩

/-- Task already cancelled when the runner dequeues it (C1 scenario:
submit, cancel while still in the queue, then the runner polls it). -/
def c1task : Task :=
  { id := "x", priority := 5, region := .usEast, status := .cancelled,
    startedAt := none, completedAt := none, workerId := none,
    algorithmUsed := none }

/-- Store holding the cancelled task and one free pool. -/
def c1store : Store := ⟨[c1task], [poolA], []⟩

/-- Two free same-region pools with different costs: FIFO picks
`poolB1` (first in iteration order), MinCost picks `poolB2`
(cheaper). -/
def poolB1 : WorkerPool :=
  { id := 1, name := "B1", region := .usEast, costPerUnit := 2,
    capacity := 2, currentLoad := 0 }

/-- The cheaper of the two pools. -/
def poolB2 : WorkerPool :=
  { id := 2, name := "B2", region := .usEast, costPerUnit := 1,
    capacity := 2, currentLoad := 0 }

/-- Queued task for the algorithm-switch scenario. -/
def c2task : Task :=
  { id := "y", priority := 5, region := .usEast, status := .queued,
    startedAt := none, completedAt := none, workerId := none,
    algorithmUsed := none }

/-- Store for the algorithm-switch scenario. -/
def c2store : Store := ⟨[c2task], [poolB1, poolB2], []⟩

/-- A task in `processing` on the pool of `c3store`. -/
def c3taskZ : Task :=
  { id := "z", priority := 5, region := .usEast, status := .processing,
    startedAt := some 1, completedAt := none, workerId := some "A",
    algorithmUsed := some .fifo }

/-- A queued task awaiting claim in `c3store`. -/
def c3taskW : Task :=
  { id := "w", priority := 5, region := .usEast, status := .queued,
    startedAt := none, completedAt := none, workerId := none,
    algorithmUsed := none }

/-- Store with one processing and one queued task, pool at load 1 of
capacity 2, and the logs admission and dispatch have written so far. -/
def c3store : Store :=
  ⟨[c3taskZ, c3taskW], [{ poolA with currentLoad := 1 }],
    [⟨"z", "created"⟩, ⟨"z", "scheduled"⟩]⟩

/-- Store satisfying load conservation: one processing task, one
queued task, one pool at load 1. -/
def c5store : Store :=
  ⟨[c3taskZ, c3taskW], [{ poolA with currentLoad := 1 }], []⟩

/-- The store `cancel_task c5store "w"` commits. -/
def c5storeCancelled : Store :=
  ⟨[c3taskZ, { c3taskW with status := .cancelled }],
    [{ poolA with currentLoad := 1 }], [⟨"w", "cancelled"⟩]⟩

/-- A started (and not stopped) scheduler runner. -/
def startedRunner : RunnerState := runnerStart (runnerInit .fifo)

/-- High-priority task for the Priority-band witness. -/
def c7taskHigh : Task :=
  { id := "h", priority := 9, region := .usEast, status := .queued,
    startedAt := none, completedAt := none, workerId := none,
    algorithmUsed := none }

/-- Task list with a single failed task, for the throughput claim. -/
def c10tasks : List Task :=
  [{ id := "f", priority := 5, region := .usEast, status := .failed,
     startedAt := some 1, completedAt := some 2, workerId := some "A",
     algorithmUsed := some .fifo }]

/-! ### Helper lemmas about first-match lookup and replacement -/

theorem find?_eq_filter_head? {α : Type} (p : α → Bool) (l : List α) :
    l.find? p = (l.filter p).head? := by
  induction l with
  | nil => rfl
  | cons x xs ih =>
    rw [List.find?_cons, List.filter_cons]
    cases hx : p x
    · rw [if_neg (by simp [hx])]
      exact ih
    · rw [if_pos rfl]
      rfl

theorem replaceTask_of_find?_none {ts : List Task} {tid : String}
    (h : findTask ts tid = none) (f : Task → Task) :
    replaceTask ts tid f = ts := by
  induction ts with
  | nil => rfl
  | cons t rest ih =>
    unfold findTask at h ih
    rw [List.find?_cons] at h
    by_cases ht : t.id = tid
    · rw [decide_eq_true ht] at h
      exact absurd h (by simp)
    · rw [decide_eq_false ht] at h
      show (if t.id = tid then f t :: rest else t :: replaceTask rest tid f) = t :: rest
      rw [if_neg ht, ih h]

theorem findTask_replaceTask_self {ts : List Task} {tid : String} {f : Task → Task}
    (hf : ∀ t, (f t).id = t.id) :
    findTask (replaceTask ts tid f) tid = (findTask ts tid).map f := by
  induction ts with
  | nil => rfl
  | cons t rest ih =>
    by_cases ht : t.id = tid
    · have hft : (f t).id = tid := by rw [hf t]; exact ht
      show findTask (if t.id = tid then f t :: rest else _) tid = _
      rw [if_pos ht]
      unfold findTask
      rw [List.find?_cons, List.find?_cons, decide_eq_true hft, decide_eq_true ht]
      rfl
    · show findTask (if t.id = tid then _ else t :: replaceTask rest tid f) tid = _
      rw [if_neg ht]
      unfold findTask
      rw [List.find?_cons, List.find?_cons, decide_eq_false ht]
      exact ih

theorem findTask_replaceTask_other {ts : List Task} {tid tid' : String}
    {f : Task → Task} (hf : ∀ t, (f t).id = t.id) (hne : tid' ≠ tid) :
    findTask (replaceTask ts tid f) tid' = findTask ts tid' := by
  induction ts with
  | nil => rfl
  | cons t rest ih =>
    by_cases ht : t.id = tid
    · have h1 : ¬ (f t).id = tid' := by
        rw [hf t, ht]; exact fun h => hne h.symm
      have h2 : ¬ t.id = tid' := by
        rw [ht]; exact fun h => hne h.symm
      show findTask (if t.id = tid then f t :: rest else _) tid' = _
      rw [if_pos ht]
      unfold findTask
      rw [List.find?_cons, List.find?_cons, decide_eq_false h1, decide_eq_false h2]
    · show findTask (if t.id = tid then _ else t :: replaceTask rest tid f) tid' = _
      rw [if_neg ht]
      unfold findTask
      rw [List.find?_cons, List.find?_cons]
      cases hd : decide (t.id = tid')
      · exact ih
      · rfl

theorem countP_replaceTask {ts : List Task} {tid : String} {t : Task}
    (h : findTask ts tid = some t) (f : Task → Task) (p : Task → Bool) :
    (replaceTask ts tid f).countP p + (if p t then 1 else 0) =
      ts.countP p + (if p (f t) then 1 else 0) := by
  induction ts with
  | nil => exact absurd h (by simp [findTask])
  | cons u rest ih =>
    unfold findTask at h ih
    rw [List.find?_cons] at h
    by_cases hu : u.id = tid
    · rw [decide_eq_true hu] at h
      have hut : u = t := by injection h
      subst hut
      have hrw : replaceTask (u :: rest) tid f = f u :: rest := by
        show (if u.id = tid then f u :: rest else u :: replaceTask rest tid f) = _
        rw [if_pos hu]
      rw [hrw, List.countP_cons, List.countP_cons]
      by_cases h1 : p u <;> by_cases h2 : p (f u) <;> simp [h1, h2]
    · rw [decide_eq_false hu] at h
      have hrw : replaceTask (u :: rest) tid f = u :: replaceTask rest tid f := by
        show (if u.id = tid then f u :: rest else u :: replaceTask rest tid f) = _
        rw [if_neg hu]
      rw [hrw, List.countP_cons, List.countP_cons]
      have := ih h
      omega

theorem replacePool_of_find?_none {ps : List WorkerPool} {pid : ℕ}
    (h : findPool ps pid = none) (f : WorkerPool → WorkerPool) :
    replacePool ps pid f = ps := by
  induction ps with
  | nil => rfl
  | cons q rest ih =>
    unfold findPool at h ih
    rw [List.find?_cons] at h
    by_cases hq : q.id = pid
    · rw [decide_eq_true hq] at h
      exact absurd h (by simp)
    · rw [decide_eq_false hq] at h
      show (if q.id = pid then f q :: rest else q :: replacePool rest pid f) = q :: rest
      rw [if_neg hq, ih h]

theorem findPool_replacePool_self {ps : List WorkerPool} {pid : ℕ}
    {f : WorkerPool → WorkerPool} (hf : ∀ p, (f p).id = p.id) :
    findPool (replacePool ps pid f) pid = (findPool ps pid).map f := by
  induction ps with
  | nil => rfl
  | cons q rest ih =>
    by_cases hq : q.id = pid
    · have hfq : (f q).id = pid := by rw [hf q]; exact hq
      show findPool (if q.id = pid then f q :: rest else _) pid = _
      rw [if_pos hq]
      unfold findPool
      rw [List.find?_cons, List.find?_cons, decide_eq_true hfq, decide_eq_true hq]
      rfl
    · show findPool (if q.id = pid then _ else q :: replacePool rest pid f) pid = _
      rw [if_neg hq]
      unfold findPool
      rw [List.find?_cons, List.find?_cons, decide_eq_false hq]
      exact ih

theorem findPool_replacePool_other {ps : List WorkerPool} {pid pid' : ℕ}
    {f : WorkerPool → WorkerPool} (hf : ∀ p, (f p).id = p.id) (hne : pid' ≠ pid) :
    findPool (replacePool ps pid f) pid' = findPool ps pid' := by
  induction ps with
  | nil => rfl
  | cons q rest ih =>
    by_cases hq : q.id = pid
    · have h1 : ¬ (f q).id = pid' := by
        rw [hf q, hq]; exact fun h => hne h.symm
      have h2 : ¬ q.id = pid' := by
        rw [hq]; exact fun h => hne h.symm
      show findPool (if q.id = pid then f q :: rest else _) pid' = _
      rw [if_pos hq]
      unfold findPool
      rw [List.find?_cons, List.find?_cons, decide_eq_false h1, decide_eq_false h2]
    · show findPool (if q.id = pid then _ else q :: replacePool rest pid f) pid' = _
      rw [if_neg hq]
      unfold findPool
      rw [List.find?_cons, List.find?_cons]
      cases hd : decide (q.id = pid')
      · exact ih
      · rfl

theorem poolLoadSum_replacePool {ps : List WorkerPool} {pid : ℕ} {p : WorkerPool}
    (h : findPool ps pid = some p) (f : WorkerPool → WorkerPool) :
    poolLoadSum (replacePool ps pid f) =
      poolLoadSum ps - p.currentLoad + (f p).currentLoad := by
  induction ps with
  | nil => exact absurd h (by simp [findPool])
  | cons q rest ih =>
    unfold findPool at h ih
    rw [List.find?_cons] at h
    by_cases hq : q.id = pid
    · rw [decide_eq_true hq] at h
      have hqp : q = p := by injection h
      subst hqp
      have hrw : replacePool (q :: rest) pid f = f q :: rest := by
        show (if q.id = pid then f q :: rest else q :: replacePool rest pid f) = _
        rw [if_pos hq]
      rw [hrw]
      unfold poolLoadSum
      rw [List.map_cons, List.sum_cons, List.map_cons, List.sum_cons]
      ring
    · rw [decide_eq_false hq] at h
      have hrw : replacePool (q :: rest) pid f = q :: replacePool rest pid f := by
        show (if q.id = pid then f q :: rest else q :: replacePool rest pid f) = _
        rw [if_neg hq]
      rw [hrw]
      unfold poolLoadSum at ih ⊢
      rw [List.map_cons, List.sum_cons, List.map_cons, List.sum_cons, ih h]
      ring

theorem mem_replacePool {ps : List WorkerPool} {pid : ℕ} {p0 : WorkerPool}
    (h : findPool ps pid = some p0) (f : WorkerPool → WorkerPool) :
    ∀ q ∈ replacePool ps pid f, q ∈ ps ∨ q = f p0 := by
  induction ps with
  | nil => intro q hq; exact absurd hq (by simp [replacePool])
  | cons p rest ih =>
    unfold findPool at h ih
    rw [List.find?_cons] at h
    by_cases hp : p.id = pid
    · rw [decide_eq_true hp] at h
      have hpp : p = p0 := by injection h
      subst hpp
      intro q hq
      rw [show replacePool (p :: rest) pid f =
            if p.id = pid then f p :: rest else p :: replacePool rest pid f from rfl,
          if_pos hp] at hq
      rcases List.mem_cons.mp hq with hq | hq
      · right; exact hq
      · left; exact List.mem_cons_of_mem _ hq
    · rw [decide_eq_false hp] at h
      intro q hq
      rw [show replacePool (p :: rest) pid f =
            if p.id = pid then f p :: rest else p :: replacePool rest pid f from rfl,
          if_neg hp] at hq
      rcases List.mem_cons.mp hq with hq | hq
      · left; rw [hq]; exact List.mem_cons_self _ _
      · rcases ih h q hq with h1 | h1
        · left; exact List.mem_cons_of_mem _ h1
        · right; exact h1

/-! ### Python `min`/`max` with key: the fold returns an optimum -/

theorem pyMin_foldl_spec {α β : Type} [LinearOrder β] (k : α → β) (xs : List α) :
    ∀ b : α,
      (xs.foldl (fun b y => if k y < k b then y else b) b = b ∨
        xs.foldl (fun b y => if k y < k b then y else b) b ∈ xs) ∧
      k (xs.foldl (fun b y => if k y < k b then y else b) b) ≤ k b ∧
      ∀ y ∈ xs, k (xs.foldl (fun b y => if k y < k b then y else b) b) ≤ k y := by
  induction xs with
  | nil =>
    intro b
    exact ⟨Or.inl rfl, le_refl _, by simp⟩
  | cons x xs ih =>
    intro b
    rw [List.foldl_cons]
    obtain ⟨hmem, hle, hall⟩ := ih (if k x < k b then x else b)
    have hb'b : k (if k x < k b then x else b) ≤ k b := by
      split
      · exact le_of_lt (by assumption)
      · exact le_refl _
    have hb'x : k (if k x < k b then x else b) ≤ k x := by
      split
      · exact le_refl _
      · exact le_of_not_lt (by assumption)
    refine ⟨?_, le_trans hle hb'b, ?_⟩
    · rcases hmem with h | h
      · rw [h]
        by_cases hx : k x < k b
        · rw [if_pos hx]
          exact Or.inr (List.mem_cons_self _ _)
        · rw [if_neg hx]
          exact Or.inl rfl
      · exact Or.inr (List.mem_cons_of_mem _ h)
    · intro y hy
      rcases List.mem_cons.mp hy with hy | hy
      · rw [hy]
        exact le_trans hle hb'x
      · exact hall y hy

theorem pyMax_foldl_spec {α β : Type} [LinearOrder β] (k : α → β) (xs : List α) :
    ∀ b : α,
      (xs.foldl (fun b y => if k b < k y then y else b) b = b ∨
        xs.foldl (fun b y => if k b < k y then y else b) b ∈ xs) ∧
      k b ≤ k (xs.foldl (fun b y => if k b < k y then y else b) b) ∧
      ∀ y ∈ xs, k y ≤ k (xs.foldl (fun b y => if k b < k y then y else b) b) := by
  induction xs with
  | nil =>
    intro b
    exact ⟨Or.inl rfl, le_refl _, by simp⟩
  | cons x xs ih =>
    intro b
    rw [List.foldl_cons]
    obtain ⟨hmem, hle, hall⟩ := ih (if k b < k x then x else b)
    have hb'b : k b ≤ k (if k b < k x then x else b) := by
      split
      · exact le_of_lt (by assumption)
      · exact le_refl _
    have hb'x : k x ≤ k (if k b < k x then x else b) := by
      split
      · exact le_refl _
      · exact le_of_not_lt (by assumption)
    refine ⟨?_, le_trans hb'b hle, ?_⟩
    · rcases hmem with h | h
      · rw [h]
        by_cases hx : k b < k x
        · rw [if_pos hx]
          exact Or.inr (List.mem_cons_self _ _)
        · rw [if_neg hx]
          exact Or.inl rfl
      · exact Or.inr (List.mem_cons_of_mem _ h)
    · intro y hy
      rcases List.mem_cons.mp hy with hy | hy
      · rw [hy]
        exact le_trans hb'x hle
      · exact hall y hy

theorem pyMinBy_spec {α β : Type} [LinearOrder β] (k : α → β) (l : List α)
    (hl : l ≠ []) :
    ∃ m, pyMinBy k l = some m ∧ m ∈ l ∧ ∀ y ∈ l, k m ≤ k y := by
  cases l with
  | nil => exact absurd rfl hl
  | cons x xs =>
    obtain ⟨hmem, hle, hall⟩ := pyMin_foldl_spec k xs x
    refine ⟨_, rfl, ?_, ?_⟩
    · rcases hmem with h | h
      · rw [h]; exact List.mem_cons_self _ _
      · exact List.mem_cons_of_mem _ h
    · intro y hy
      rcases List.mem_cons.mp hy with hy | hy
      · rw [hy]; exact hle
      · exact hall y hy

theorem pyMaxBy_spec {α β : Type} [LinearOrder β] (k : α → β) (l : List α)
    (hl : l ≠ []) :
    ∃ m, pyMaxBy k l = some m ∧ m ∈ l ∧ ∀ y ∈ l, k y ≤ k m := by
  cases l with
  | nil => exact absurd rfl hl
  | cons x xs =>
    obtain ⟨hmem, hle, hall⟩ := pyMax_foldl_spec k xs x
    refine ⟨_, rfl, ?_, ?_⟩
    · rcases hmem with h | h
      · rw [h]; exact List.mem_cons_self _ _
      · exact List.mem_cons_of_mem _ h
    · intro y hy
      rcases List.mem_cons.mp hy with hy | hy
      · rw [hy]; exact hle
      · exact hall y hy

theorem pyMinBy_eq_none_iff {α β : Type} [LinearOrder β] (k : α → β)
    (l : List α) : pyMinBy k l = none ↔ l = [] := by
  cases l <;> simp [pyMinBy]

theorem pyMaxBy_eq_none_iff {α β : Type} [LinearOrder β] (k : α → β)
    (l : List α) : pyMaxBy k l = none ↔ l = [] := by
  cases l <;> simp [pyMaxBy]

/-! ### Candidate-set lemmas for the policy strategies -/

theorem mem_availablePools {task : Task} {pools : List WorkerPool} {p : WorkerPool}
    (h : p ∈ availablePools task pools) :
    p ∈ pools ∧ p.currentLoad < p.capacity := by
  unfold availablePools at h
  by_cases he :
      (pools.filter
        (fun p => decide (p.region = task.region) && can_accept_task p)).isEmpty
  · rw [if_pos he] at h
    obtain ⟨hmem, hacc⟩ := List.mem_filter.mp h
    exact ⟨hmem, by simpa [can_accept_task] using hacc⟩
  · rw [if_neg he] at h
    obtain ⟨hmem, hacc⟩ := List.mem_filter.mp h
    rw [Bool.and_eq_true] at hacc
    exact ⟨hmem, by simpa [can_accept_task] using hacc.2⟩

theorem availablePools_eq_nil_iff (task : Task) (pools : List WorkerPool) :
    availablePools task pools = [] ↔
      ∀ p ∈ pools, ¬ p.currentLoad < p.capacity := by
  unfold availablePools
  by_cases he :
      (pools.filter
        (fun p => decide (p.region = task.region) && can_accept_task p)).isEmpty
  · rw [if_pos he]
    rw [List.filter_eq_nil_iff]
    constructor
    · intro h p hp hfree
      exact h p hp (by simpa [can_accept_task] using hfree)
    · intro h p hp
      simp only [can_accept_task, decide_eq_true_eq]
      exact h p hp
  · rw [if_neg he]
    have hne : pools.filter
        (fun p => decide (p.region = task.region) && can_accept_task p) ≠ [] := by
      intro hnil
      rw [hnil] at he
      exact he rfl
    constructor
    · intro h
      exact absurd h hne
    · intro hall
      exfalso
      obtain ⟨p, hp⟩ := List.exists_mem_of_ne_nil _ hne
      obtain ⟨hmem, hacc⟩ := List.mem_filter.mp hp
      rw [Bool.and_eq_true] at hacc
      exact hall p hmem (by simpa [can_accept_task] using hacc.2)

/-- C8: the FIFO strategy returns the first same-region pool with free
capacity, else the first free pool of any region, and returns none
exactly when no pool has free capacity. -/
theorem fifo_select_follows_preference_order (task : Task)
    (pools : List WorkerPool) :
    fifoSelect task pools = fifoSpecChoice task pools ∧
    (fifoSelect task pools = none ↔
      ∀ p ∈ pools, ¬ p.currentLoad < p.capacity) := by
  constructor
  · unfold fifoSelect fifoSpecChoice
    rw [find?_eq_filter_head?, find?_eq_filter_head?]
  · unfold fifoSelect
    constructor
    · intro h p hp hfree
      cases hA : pools.find?
          (fun p => decide (p.region = task.region) && can_accept_task p) with
      | some q =>
        rw [hA] at h
        exact absurd h (by simp)
      | none =>
        rw [hA] at h
        have := List.find?_eq_none.mp h p hp
        exact this (by simpa [can_accept_task] using hfree)
    · intro hall
      have h2 : pools.find? (fun p => can_accept_task p) = none :=
        List.find?_eq_none.mpr (fun p hp => by
          simpa [can_accept_task] using hall p hp)
      have h1 : pools.find?
          (fun p => decide (p.region = task.region) && can_accept_task p) = none :=
        List.find?_eq_none.mpr (fun p hp => by
          simp only [Bool.and_eq_true, can_accept_task, decide_eq_true_eq, not_and]
          intro _
          exact hall p hp)
      rw [h1, h2]

/-- C7: the Priority strategy restricts to free-capacity pools of the
task's region (falling back to all regions), returns none exactly when
no pool has free capacity, and optimizes the band-specific objective:
min cost for priority ≥ 7, min lexicographic (cost, −capacity) for
4 ≤ priority ≤ 6, max remaining capacity for priority < 4. -/
theorem priority_select_follows_bands (task : Task) (pools : List WorkerPool) :
    (prioritySelect task pools = none ↔
      ∀ p ∈ pools, ¬ p.currentLoad < p.capacity) ∧
    ∀ sel, prioritySelect task pools = some sel →
      sel ∈ availablePools task pools ∧
      (∀ p ∈ availablePools task pools, p ∈ pools ∧ p.currentLoad < p.capacity) ∧
      (7 ≤ task.priority →
        ∀ q ∈ availablePools task pools, sel.costPerUnit ≤ q.costPerUnit) ∧
      (4 ≤ task.priority → task.priority ≤ 6 →
        ∀ q ∈ availablePools task pools, mediumKey sel ≤ mediumKey q) ∧
      (task.priority < 4 →
        ∀ q ∈ availablePools task pools,
          q.capacity - q.currentLoad ≤ sel.capacity - sel.currentLoad) := by
  constructor
  · unfold prioritySelect
    by_cases he : (availablePools task pools).isEmpty
    · rw [if_pos he]
      simp only [true_iff]
      exact (availablePools_eq_nil_iff task pools).mp (List.isEmpty_iff.mp he)
    · rw [if_neg he]
      have hne : availablePools task pools ≠ [] := by
        intro hnil
        rw [hnil] at he
        exact he rfl
      have hfree : ¬ ∀ p ∈ pools, ¬ p.currentLoad < p.capacity := by
        intro hall
        exact hne ((availablePools_eq_nil_iff task pools).mpr hall)
      by_cases h7 : task.priority ≥ 7
      · rw [if_pos h7]
        obtain ⟨m, hm, _, _⟩ := pyMinBy_spec (fun p => p.costPerUnit) _ hne
        rw [hm]
        simp only [reduceCtorEq, false_iff]
        exact hfree
      · rw [if_neg h7]
        by_cases h4 : task.priority ≥ 4
        · rw [if_pos h4]
          obtain ⟨m, hm, _, _⟩ := pyMinBy_spec mediumKey _ hne
          rw [hm]
          simp only [reduceCtorEq, false_iff]
          exact hfree
        · rw [if_neg h4]
          obtain ⟨m, hm, _, _⟩ := pyMaxBy_spec get_available_capacity _ hne
          rw [hm]
          simp only [reduceCtorEq, false_iff]
          exact hfree
  · intro sel hsel
    unfold prioritySelect at hsel
    by_cases he : (availablePools task pools).isEmpty
    · rw [if_pos he] at hsel
      exact absurd hsel (by simp)
    · rw [if_neg he] at hsel
      have hne : availablePools task pools ≠ [] := by
        intro hnil
        rw [hnil] at he
        exact he rfl
      have hmemchar : ∀ p ∈ availablePools task pools,
          p ∈ pools ∧ p.currentLoad < p.capacity :=
        fun p hp => mem_availablePools hp
      by_cases h7 : task.priority ≥ 7
      · rw [if_pos h7] at hsel
        obtain ⟨m, hm, hmem, hall⟩ := pyMinBy_spec (fun p => p.costPerUnit) _ hne
        rw [hm] at hsel
        have hms : m = sel := by injection hsel
        subst hms
        refine ⟨hmem, hmemchar, fun _ q hq => hall q hq, fun _ h6 => ?_, fun hlt => ?_⟩
        · exact absurd h7 (by omega)
        · exact absurd h7 (by omega)
      · rw [if_neg h7] at hsel
        by_cases h4 : task.priority ≥ 4
        · rw [if_pos h4] at hsel
          obtain ⟨m, hm, hmem, hall⟩ := pyMinBy_spec mediumKey _ hne
          rw [hm] at hsel
          have hms : m = sel := by injection hsel
          subst hms
          refine ⟨hmem, hmemchar, fun hge => ?_, fun _ _ q hq => hall q hq, fun hlt => ?_⟩
          · exact absurd hge (by omega)
          · exact absurd hlt (by omega)
        · rw [if_neg h4] at hsel
          obtain ⟨m, hm, hmem, hall⟩ := pyMaxBy_spec get_available_capacity _ hne
          rw [hm] at hsel
          have hms : m = sel := by injection hsel
          subst hms
          refine ⟨hmem, hmemchar, fun hge => ?_, fun hge _ => ?_, fun _ q hq => ?_⟩
          · exact absurd hge (by omega)
          · exact absurd hge (by omega)
          · have hq2 := hall q hq
            have hfq := (mem_availablePools hq).2
            have hfm := (mem_availablePools hmem).2
            unfold get_available_capacity at hq2
            rw [max_eq_right (by omega : (0:ℤ) ≤ q.capacity - q.currentLoad),
              max_eq_right (by omega : (0:ℤ) ≤ m.capacity - m.currentLoad)] at hq2
            exact hq2

/-! ### Executor claims: atomicity, capacity bounds, load conservation -/

/-- C6: the Claim phase aborts with `false` and no mutation when the
task or pool is missing or the pool is at capacity; otherwise it
returns `true` having incremented exactly that pool's load by one and
moved exactly that task to `processing` with `started_at = now` and
`worker_id = pool.name`, all in one committed transaction. -/
theorem execute_claim_atomic (s : Store) (tid : String) (pid : ℕ) (now : ℕ) :
    (findTask s.tasks tid = none → executeClaim s tid pid now = (false, s)) ∧
    (findPool s.pools pid = none → executeClaim s tid pid now = (false, s)) ∧
    (∀ t p, findTask s.tasks tid = some t → findPool s.pools pid = some p →
      p.capacity ≤ p.currentLoad → executeClaim s tid pid now = (false, s)) ∧
    (∀ t p, findTask s.tasks tid = some t → findPool s.pools pid = some p →
      p.currentLoad < p.capacity →
      (executeClaim s tid pid now).1 = true ∧
      findPool (executeClaim s tid pid now).2.pools pid =
        some { p with currentLoad := p.currentLoad + 1 } ∧
      findTask (executeClaim s tid pid now).2.tasks tid =
        some { t with
                status := .processing, startedAt := some now,
                workerId := some p.name } ∧
      (∀ tid', tid' ≠ tid →
        findTask (executeClaim s tid pid now).2.tasks tid' = findTask s.tasks tid') ∧
      (∀ pid', pid' ≠ pid →
        findPool (executeClaim s tid pid now).2.pools pid' = findPool s.pools pid') ∧
      (executeClaim s tid pid now).2.logs = s.logs) := by
  refine ⟨?_, ?_, ?_, ?_⟩
  · intro h
    unfold executeClaim
    rw [h]
  · intro h
    unfold executeClaim
    rw [h]
    cases findTask s.tasks tid <;> rfl
  · intro t p ht hp hfull
    unfold executeClaim
    rw [ht, hp]
    dsimp only
    rw [if_pos hfull]
  · intro t p ht hp hlt
    have hgate : ¬ p.currentLoad ≥ p.capacity := not_le.mpr hlt
    have hred : executeClaim s tid pid now =
        (true,
          { s with
            pools := replacePool s.pools pid
              (fun q => { q with currentLoad := q.currentLoad + 1 }),
            tasks := replaceTask s.tasks tid
              (fun u => { u with
                status := .processing,
                startedAt := some now,
                workerId := some p.name }) }) := by
      unfold executeClaim
      rw [ht, hp]
      dsimp only
      rw [if_neg hgate]
    rw [hred]
    refine ⟨rfl, ?_, ?_, ?_, ?_, rfl⟩
    · rw [@findPool_replacePool_self s.pools pid
        (fun q => { q with currentLoad := q.currentLoad + 1 }) (fun q => rfl), hp]
      rfl
    · rw [@findTask_replaceTask_self s.tasks tid
        (fun u => { u with
                      status := TaskStatus.processing, startedAt := some now,
                      workerId := some p.name }) (fun u => rfl), ht]
      rfl
    · intro tid' hne
      exact findTask_replaceTask_other (fun u => rfl) hne
    · intro pid' hne
      exact findPool_replacePool_other (fun q => rfl) hne

/-- Witness for C6: on a store with one queued task and one free pool
the Claim phase succeeds, increments the pool's load to 1 and marks
the task processing. -/
theorem execute_claim_atomic_witness :
    findTask storeW.tasks "t1" = some taskT ∧
    findPool storeW.pools 1 = some poolA ∧
    poolA.currentLoad < poolA.capacity ∧
    (executeClaim storeW "t1" 1 3).1 = true ∧
    findPool (executeClaim storeW "t1" 1 3).2.pools 1 =
      some { poolA with currentLoad := poolA.currentLoad + 1 } ∧
    findTask (executeClaim storeW "t1" 1 3).2.tasks "t1" =
      some { taskT with
              status := .processing, startedAt := some 3,
              workerId := some poolA.name } := by
  have h := (execute_claim_atomic storeW "t1" 1 3).2.2.2 taskT poolA
    (by decide) (by decide) (by decide)
  exact ⟨by decide, by decide, by decide, h.1, h.2.1, h.2.2.1⟩

/-- C4: starting from pools satisfying `0 ≤ current_load ≤ capacity`,
both the Claim phase (which increments only under its capacity gate)
and the Release phase (which decrements with a clamp at 0) preserve
the bounds for every pool. -/
theorem pool_bounds_preserved (s : Store) (tid : String) (pid : ℕ)
    (success : Bool) (now now2 : ℕ)
    (hinv : ∀ p ∈ s.pools, 0 ≤ p.currentLoad ∧ p.currentLoad ≤ p.capacity) :
    (∀ q ∈ (executeClaim s tid pid now).2.pools,
      0 ≤ q.currentLoad ∧ q.currentLoad ≤ q.capacity) ∧
    (∀ q ∈ (executeRelease s tid pid success now2).2.pools,
      0 ≤ q.currentLoad ∧ q.currentLoad ≤ q.capacity) := by
  constructor
  · unfold executeClaim
    cases ht : findTask s.tasks tid with
    | none => exact hinv
    | some t =>
      cases hp : findPool s.pools pid with
      | none => exact hinv
      | some p =>
        dsimp only
        by_cases hfull : p.currentLoad ≥ p.capacity
        · rw [if_pos hfull]
          exact hinv
        · rw [if_neg hfull]
          dsimp only
          intro q hq
          rcases mem_replacePool hp
              (fun r => { r with currentLoad := r.currentLoad + 1 }) q hq with h | h
          · exact hinv q h
          · have hpmem : p ∈ s.pools := List.mem_of_find?_eq_some hp
            obtain ⟨h0, _⟩ := hinv p hpmem
            rw [h]
            constructor
            · show (0:ℤ) ≤ p.currentLoad + 1
              omega
            · show p.currentLoad + 1 ≤ p.capacity
              omega
  · unfold executeRelease
    cases ht : findTask s.tasks tid with
    | none => exact hinv
    | some t =>
      cases hp : findPool s.pools pid with
      | none => exact hinv
      | some p =>
        dsimp only
        intro q hq
        rcases mem_replacePool hp
            (fun r => { r with currentLoad := max 0 (r.currentLoad - 1) }) q hq with h | h
        · exact hinv q h
        · have hpmem : p ∈ s.pools := List.mem_of_find?_eq_some hp
          obtain ⟨h0, hcap⟩ := hinv p hpmem
          rw [h]
          constructor
          · exact le_max_left _ _
          · show max 0 (p.currentLoad - 1) ≤ p.capacity
            exact max_le (by omega) (by omega)

/-- Witness for C4: the bounds hold after claiming and after releasing
on the concrete one-pool store. -/
theorem pool_bounds_preserved_witness :
    (∀ p ∈ storeW.pools, 0 ≤ p.currentLoad ∧ p.currentLoad ≤ p.capacity) ∧
    (∀ q ∈ (executeClaim storeW "t1" 1 3).2.pools,
      0 ≤ q.currentLoad ∧ q.currentLoad ≤ q.capacity) ∧
    (∀ q ∈ (executeRelease storeW "t1" 1 true 4).2.pools,
      0 ≤ q.currentLoad ∧ q.currentLoad ≤ q.capacity) := by
  have hinv : ∀ p ∈ storeW.pools, 0 ≤ p.currentLoad ∧ p.currentLoad ≤ p.capacity := by
    decide
  have h := pool_bounds_preserved storeW "t1" 1 true 3 4 hinv
  exact ⟨hinv, h.1, h.2⟩

theorem countStatus_replaceTask {ts : List Task} {tid : String} {t : Task}
    (h : findTask ts tid = some t) (f : Task → Task) (st : TaskStatus) :
    countStatus (replaceTask ts tid f) st + (if t.status = st then 1 else 0) =
      countStatus ts st + (if (f t).status = st then 1 else 0) := by
  have hc := countP_replaceTask h f (fun u => decide (u.status = st))
  simp only [decide_eq_true_eq] at hc
  exact hc

/-- C5: each pipeline operation preserves the conservation equation
`Σ pool.current_load = #{tasks in processing}`: admission adds a
`queued` task and touches no load; the Claim phase (on a task that is
not already `processing`) adds one load unit and one `processing`
task in the same commit; the Release phase (on a `processing` task
whose pool holds at least one load unit) removes one of each in the
same commit; cancellation changes neither side. -/
theorem load_conservation_preserved (s : Store) (hcons : conservation s) :
    (∀ tid prio region, conservation (create_task s tid prio region)) ∧
    (∀ tid pid now,
      (∀ t, findTask s.tasks tid = some t → t.status ≠ .processing) →
      conservation (executeClaim s tid pid now).2) ∧
    (∀ tid pid success now,
      (∀ t p, findTask s.tasks tid = some t → findPool s.pools pid = some p →
        t.status = .processing ∧ 1 ≤ p.currentLoad) →
      conservation (executeRelease s tid pid success now).2) ∧
    (∀ tid s', cancel_task s tid = .ok s' → conservation s') := by
  refine ⟨?_, ?_, ?_, ?_⟩
  · intro tid prio region
    unfold conservation countStatus at hcons ⊢
    unfold create_task
    dsimp only
    rw [List.countP_append]
    have hone : List.countP (fun t => decide (t.status = TaskStatus.processing))
        ([{ id := tid, priority := prio, region := region,
            status := TaskStatus.queued, startedAt := none, completedAt := none,
            workerId := none, algorithmUsed := none }] : List Task) = 0 := by
      simp [List.countP_cons]
    rw [hone]
    omega
  · intro tid pid now hstat
    unfold executeClaim
    cases ht : findTask s.tasks tid with
    | none => exact hcons
    | some t =>
      cases hp : findPool s.pools pid with
      | none => exact hcons
      | some p =>
        dsimp only
        by_cases hfull : p.currentLoad ≥ p.capacity
        · rw [if_pos hfull]
          exact hcons
        · rw [if_neg hfull]
          dsimp only
          unfold conservation at hcons ⊢
          rw [poolLoadSum_replacePool hp]
          dsimp only
          have hcount := countStatus_replaceTask ht
            (fun u => { u with
                          status := TaskStatus.processing,
                          startedAt := some now, workerId := some p.name })
            TaskStatus.processing
          rw [if_neg (hstat t ht), if_pos rfl] at hcount
          omega
  · intro tid pid success now hstat
    unfold executeRelease
    cases ht : findTask s.tasks tid with
    | none => exact hcons
    | some t =>
      cases hp : findPool s.pools pid with
      | none => exact hcons
      | some p =>
        dsimp only
        obtain ⟨htproc, hload⟩ := hstat t p ht hp
        unfold conservation at hcons ⊢
        rw [poolLoadSum_replacePool hp]
        dsimp only
        rw [max_eq_right (by omega : (0:ℤ) ≤ p.currentLoad - 1)]
        have hcount := countStatus_replaceTask ht
          (fun u => { u with
                        status := if success then TaskStatus.completed
                          else TaskStatus.failed,
                        completedAt := some now })
          TaskStatus.processing
        have hterm : ¬ (({ t with
            status := if success then TaskStatus.completed else TaskStatus.failed,
            completedAt := some now } : Task).status = TaskStatus.processing) := by
          cases success <;> simp
        rw [if_pos htproc, if_neg hterm] at hcount
        omega
  · intro tid s' hok
    unfold cancel_task at hok
    cases ht : findTask s.tasks tid with
    | none =>
      rw [ht] at hok
      exact absurd hok (by simp)
    | some t =>
      rw [ht] at hok
      dsimp only at hok
      by_cases hq : t.status = TaskStatus.queued
      · rw [if_pos hq] at hok
        have hs' : ({ s with
            tasks := replaceTask s.tasks tid
              (fun u => { u with status := TaskStatus.cancelled }),
            logs := s.logs ++ [⟨tid, "cancelled"⟩] } : Store) = s' := by
          injection hok
        rw [← hs']
        unfold conservation at hcons ⊢
        dsimp only
        have hcount := countStatus_replaceTask ht
          (fun u => { u with status := TaskStatus.cancelled })
          TaskStatus.processing
        have h1 : ¬ (t.status = TaskStatus.processing) := by
          rw [hq]
          decide
        have h2 : ¬ (({ t with status := TaskStatus.cancelled } : Task).status =
            TaskStatus.processing) := by
          simp
        rw [if_neg h1, if_neg h2] at hcount
        omega
      · rw [if_neg hq] at hok
        exact absurd hok (by simp)

/-- Witness for C5: on a concrete conserving store, conservation holds
after admission, after a claim of the queued task, after a release of
the processing task, and after a cancellation. -/
theorem load_conservation_preserved_witness :
    conservation c5store ∧
    conservation (create_task c5store "c" 5 Region.usEast) ∧
    conservation (executeClaim c5store "w" 1 7).2 ∧
    conservation (executeRelease c5store "z" 1 true 9).2 ∧
    cancel_task c5store "w" = Except.ok c5storeCancelled ∧
    conservation c5storeCancelled := by
  have hcons : conservation c5store := by decide
  have h := load_conservation_preserved c5store hcons
  have hcancel : cancel_task c5store "w" = Except.ok c5storeCancelled := by rfl
  refine ⟨hcons, h.1 "c" 5 Region.usEast, h.2.1 "w" 1 7 ?_,
    h.2.2.1 "z" 1 true 9 ?_, hcancel,
    h.2.2.2 "w" c5storeCancelled hcancel⟩
  · intro t hfind
    have hw : findTask c5store.tasks "w" = some c3taskW := by decide
    rw [hw] at hfind
    have ht : c3taskW = t := by injection hfind
    rw [← ht]
    decide
  · intro t p h1 h2
    have hz : findTask c5store.tasks "z" = some c3taskZ := by decide
    have hp1 : findPool c5store.pools 1 =
        some { poolA with currentLoad := 1 } := by decide
    rw [hz] at h1
    rw [hp1] at h2
    have e1 : c3taskZ = t := by injection h1
    have e2 : ({ poolA with currentLoad := 1 } : WorkerPool) = p := by injection h2
    rw [← e1, ← e2]
    constructor
    · decide
    · decide

/-- C1 exhibit: `_process_task` checks only that the task exists, not
its status.  On the cancelled task of `c1store` it selects the free
pool, writes a `scheduled` log, and hands the task to the executor;
the executor then drives the cancelled task through `processing` into
`completed`. -/
theorem runner_processes_cancelled_task :
    c1task.status = TaskStatus.cancelled ∧
    findTask c1store.tasks "x" = some c1task ∧
    (process_task .fifo .fifo c1store "x").handedToExecutor = some ("x", 1) ∧
    (process_task .fifo .fifo c1store "x").store.logs = [⟨"x", "scheduled"⟩] ∧
    (findTask (executeClaim
        (process_task .fifo .fifo c1store "x").store "x" 1 5).2.tasks "x").map
      Task.status = some TaskStatus.processing ∧
    (findTask (executeRelease
        (executeClaim (process_task .fifo .fifo c1store "x").store "x" 1 5).2
        "x" 1 true 6).2.tasks "x").map Task.status =
      some TaskStatus.completed := by
  decide

/-- C2 exhibit: after `set_algorithm(min_cost)` on the running runner,
the dispatch loop still selects with the strategy object created at
start (FIFO picks `poolB1`), while the MinCost rule would pick the
cheaper `poolB2`; only the recorded `algorithm_used` reflects the
switch.  A task dispatched before the switch records `fifo`. -/
theorem dispatch_ignores_switched_algorithm :
    (set_algorithm startedRunner .minCost).running = true ∧
    (set_algorithm startedRunner .minCost).loopAlgorithm = some .fifo ∧
    (runnerDispatch (set_algorithm startedRunner .minCost) c2store
        "y").handedToExecutor = some ("y", 1) ∧
    minCostSelect c2task c2store.pools = some poolB2 ∧
    poolB1.id = 1 ∧
    poolB2.id = 2 ∧
    (findTask (runnerDispatch (set_algorithm startedRunner .minCost) c2store
        "y").store.tasks "y").map Task.algorithmUsed =
      some (some .minCost) ∧
    (findTask (runnerDispatch startedRunner c2store "y").store.tasks "y").map
      Task.algorithmUsed = some (some .fifo) := by
  decide

/-- C3 exhibit: the executor's Claim phase performs the
`queued → processing` transition and its Release phase performs the
`processing → completed` transition, and neither appends any
`ScheduleLog` row: the log table is unchanged by both commits. -/
theorem lifecycle_transitions_append_no_log :
    (findTask c3store.tasks "w").map Task.status = some TaskStatus.queued ∧
    (findTask (executeClaim c3store "w" 1 5).2.tasks "w").map Task.status =
      some TaskStatus.processing ∧
    (executeClaim c3store "w" 1 5).2.logs = c3store.logs ∧
    (findTask c3store.tasks "z").map Task.status = some TaskStatus.processing ∧
    (findTask (executeRelease c3store "z" 1 true 9).2.tasks "z").map Task.status =
      some TaskStatus.completed ∧
    (executeRelease c3store "z" 1 true 9).2.logs = c3store.logs := by
  decide

/-- C9 exhibit: `SchedulerRunner` defines no `is_running` method, so
the health endpoint's probe raises and is caught: even for a started,
never-stopped runner with healthy store and queue probes, the
endpoint reports the scheduler as `stopped` and the overall status as
`degraded`. -/
theorem health_reports_stopped_for_running_scheduler :
    startedRunner.running = true ∧
    isRunningMethod.isNone = true ∧
    health_check true true startedRunner =
      ⟨"degraded", "healthy", "healthy", "stopped"⟩ := by
  refine ⟨by decide, rfl, by decide⟩

/-- C10 counterexample: on a store whose only terminal task is
`failed`, the claim predicts throughput 0 (completed per minute), but
`get_system_stats` reports a non-zero value: `round(1/60, 2) = 0.02`. -/
theorem throughput_nonzero_with_only_failed_tasks :
    countStatus c10tasks .completed = 0 ∧
    countStatus c10tasks .failed = 1 ∧
    statsThroughput c10tasks = 1/50 ∧
    statsThroughput c10tasks ≠ 0 := by
  have hc : countStatus c10tasks .completed = 0 := by decide
  have hfv : countStatus c10tasks .failed = 1 := by decide
  have hval : statsThroughput c10tasks = 1/50 := by
    unfold statsThroughput
    dsimp only
    rw [hc, hfv]
    rw [if_pos (by norm_num)]
    have hq : (((0 + 1 : ℕ) : ℚ) / 60) * 100 = 5/3 := by norm_num
    unfold roundTo2 roundHalfEven
    rw [hq]
    have hf : ⌊(5/3 : ℚ)⌋ = 1 := by
      apply Int.floor_eq_iff.mpr
      norm_num
    rw [hf]
    rw [if_neg (by norm_num), if_pos (by norm_num)]
    norm_num
  exact ⟨hc, hfv, hval, by rw [hval]; norm_num⟩

/-- C10 amended: the reported throughput is
`round((completed + failed) / 60, 2)` — failed tasks are counted
alongside completed ones, over the fixed 60-second divisor. -/
theorem throughput_counts_completed_and_failed (ts : List Task) :
    statsThroughput ts =
      roundTo2 (((countStatus ts .completed + countStatus ts .failed : ℕ) : ℚ) / 60) := by
  unfold statsThroughput
  dsimp only
  by_cases h : countStatus ts .completed + countStatus ts .failed > 0
  · rw [if_pos h]
  · rw [if_neg h]
    have h0 : countStatus ts .completed + countStatus ts .failed = 0 := by omega
    rw [h0]
    rw [Nat.cast_zero]
    norm_num [roundTo2, roundHalfEven]

/-- Witness for C7: with two free same-region pools of costs 2 and 1,
the Priority strategy selects the cheaper pool for a priority-9 task,
and that pool is cost-minimal among the candidates. -/
theorem priority_select_follows_bands_witness :
    prioritySelect c7taskHigh [poolB1, poolB2] = some poolB2 ∧
    poolB2 ∈ availablePools c7taskHigh [poolB1, poolB2] ∧
    (∀ q ∈ availablePools c7taskHigh [poolB1, poolB2],
      poolB2.costPerUnit ≤ q.costPerUnit) := by
  have hsel : prioritySelect c7taskHigh [poolB1, poolB2] = some poolB2 := by
    decide
  have h := (priority_select_follows_bands c7taskHigh [poolB1, poolB2]).2
    poolB2 hsel
  exact ⟨hsel, h.1, h.2.2.1 (by decide)⟩

end TaskRouterX
